import Mathlib

/-!
Verification of the gitignore-aware directory traversal and filtering engine
of the Gitree tool against its natural-language specification.

The Python sources embedded here are:
  * `gitree/services/tree_service.py`        (`draw_tree` and its inner `rec`)
  * `gitree/services/tree_formatting_service.py` (`build_tree_data` and its inner `rec`)
  * `gitree/services/files_selection.py`     (`collect_candidate_files`, `resolve_selected_files`)
  * `gitree/utilities/logger.py`             (`Logger`, `OutputBuffer`)

Two pieces of code the traversal depends on are not part of the repository
sources available here and are therefore modelled from the spec, as marked on
their doc comments: the `list_entries` child filter (spec §4.3 EntryFilter),
the `GitIgnoreMatcher.within_depth` depth gate (spec §4.2), and the external
`pathspec` gitwildmatch matcher (spec §4.1 PatternSet).

Machine model: a filesystem snapshot is a finite tree of named entries; file
reads may fail (Python raises), modelled with `Except Unit`.  Recursive
traversals take an explicit fuel argument (first argument) so that all
definitions reduce in the kernel; the public wrappers instantiate the fuel
with `fsFuel`, the size of the snapshot, which always exceeds its depth.
Strings are matched and compared through their character lists, mirroring
Python `str` semantics (`startswith`, `strip`, `lstrip`, slicing).
-/

namespace Gitree

mutual
/-- One filesystem child as discovered during traversal: a file (with its text
content and whether reading it succeeds) or a directory with children.
The `readable` flag models whether `Path.read_text` succeeds or raises.
Children are carried by the companion list type `FSL` so that size and
traversal functions are structurally recursive and reduce in the kernel. -/
inductive FSEntry where
  | file (name : String) (content : String) (readable : Bool)
  | dir (name : String) (children : FSL)

/-- A list of filesystem entries (the raw children of one directory, in
filesystem read order). -/
inductive FSL where
  | nil
  | cons (hd : FSEntry) (tl : FSL)
end

/-- View a child list as an ordinary list. -/
def FSL.toList : FSL → List FSEntry
  | .nil => []
  | .cons e tl => e :: FSL.toList tl

/-- Build a child list from an ordinary list. -/
def FSL.ofList : List FSEntry → FSL
  | [] => .nil
  | e :: tl => .cons e (FSL.ofList tl)

/-- Size of a child list, used as traversal fuel. -/
def fsSizeL : FSL → Nat
  | .nil => 1
  | .cons (.file _ _ _) tl => 1 + fsSizeL tl
  | .cons (.dir _ ch) tl => 1 + fsSizeL ch + fsSizeL tl

/-- Size of a filesystem snapshot, a fuel bound that always exceeds the
nesting depth of the tree. -/
def fsFuel : FSEntry → Nat
  | .file _ _ _ => 1
  | .dir _ ch => 1 + fsSizeL ch

/-- Name of an entry (`entry.name` in Python). -/
def FSEntry.name : FSEntry → String
  | .file n _ _ => n
  | .dir n _ => n

/-- `entry.is_dir()`. -/
def FSEntry.isDir : FSEntry → Bool
  | .file _ _ _ => false
  | .dir _ _ => true

/-- `entry.is_file()`. -/
def FSEntry.isFile : FSEntry → Bool
  | .file _ _ _ => true
  | .dir _ _ => false

/-- Python whitespace characters recognised by `str.strip()`. -/
def isPyWS (c : Char) : Bool :=
  c == ' ' || c == '\t' || c == '\n' || c == '\r' || c.val == 11 || c.val == 12

/-- Python `line.strip()`. -/
def pyStrip (s : String) : String :=
  ⟨((s.data.dropWhile isPyWS).reverse.dropWhile isPyWS).reverse⟩

/-- Python `s.startswith(pre)`. -/
def strStartsWith (s pre : String) : Bool :=
  pre.data.isPrefixOf s.data

/-- Python `s.endswith(suf)`. -/
def strEndsWith (s suf : String) : Bool :=
  suf.data.isSuffixOf s.data

/-- Python `s[n:]`. -/
def strDrop (s : String) (n : Nat) : String :=
  ⟨s.data.drop n⟩

/-- Python `s[:-1]`. -/
def strDropLast (s : String) : String :=
  ⟨s.data.dropLast⟩

/-- Python `s.lstrip("/")`: remove all leading `/` characters. -/
def lstripSlashes (s : String) : String :=
  ⟨s.data.dropWhile (· == '/')⟩

/-- Python `str.splitlines()` for newline-separated text (no entry for a
trailing newline, empty list for the empty string). -/
def splitLinesAux : List Char → List Char → List String
  | [], acc => if acc.isEmpty then [] else [⟨acc.reverse⟩]
  | '\n' :: rest, acc => (⟨acc.reverse⟩ : String) :: splitLinesAux rest []
  | c :: rest, acc => splitLinesAux rest (c :: acc)

/-- Split file text into lines, Python `splitlines` style. -/
def splitLines (s : String) : List String :=
  splitLinesAux s.data []

/-- POSIX-join a root-relative directory path and a child name
(`(dirpath / name).relative_to(root).as_posix()`). -/
def joinRel (relDir n : String) : String :=
  if relDir = "" then n else relDir ++ "/" ++ n

/-- The glob-prefix for rules found in a directory's `.gitignore`:
`"" if rel_dir == "." else rel_dir + "/"` in the source, with the root's
relative directory represented as `""` here. -/
def dirPrefixPath (relDir : String) : String :=
  if relDir = "" then "" else relDir ++ "/"

/-- Modelled from the spec: glob matching of the external `pathspec`
gitwildmatch engine (spec §4.1), character by character on the root-relative
POSIX path; `*` and `?` do not cross a `/` separator.  Fuel-indexed so the
definition reduces in the kernel; `globMatch` supplies sufficient fuel. -/
def globMatchF : Nat → List Char → List Char → Bool
  | 0, _, _ => false
  | _ + 1, [], [] => true
  | _ + 1, [], _ :: _ => false
  | f + 1, '*' :: ps, [] => globMatchF f ps []
  | f + 1, '*' :: ps, c :: cs =>
      globMatchF f ps (c :: cs) || (!(c == '/') && globMatchF f ('*' :: ps) cs)
  | f + 1, '?' :: ps, c :: cs => !(c == '/') && globMatchF f ps cs
  | _ + 1, _ :: _, [] => false
  | f + 1, p :: ps, c :: cs => p == c && globMatchF f ps cs

/-- Modelled from the spec: match one glob against one relative path. -/
def globMatch (pat s : String) : Bool :=
  globMatchF (pat.data.length + s.data.length + 1) pat.data s.data

/-- Whether a compiled rule is a negation rule (leading `!`). -/
def ruleNegated (r : String) : Bool :=
  strStartsWith r "!"

/-- The glob text of a compiled rule (negation marker removed). -/
def ruleGlob (r : String) : String :=
  if ruleNegated r then strDrop r 1 else r

/-- Modelled from the spec: whether one rule's glob applies to a path; a
trailing `/` makes the rule directory-only (spec §4.1). -/
def globApplies (glob relPath : String) (isDir : Bool) : Bool :=
  if strEndsWith glob "/" then isDir && globMatch (strDropLast glob) relPath
  else globMatch glob relPath

/-- Modelled from the spec: `pathspec.PathSpec.from_lines("gitwildmatch",
patterns).match_file(rel_path)` — evaluate the ordered rules left to right,
the verdict starting at `false` and each applicable rule overwriting it with
the opposite of its negation flag (spec §4.1). -/
def specMatchFile (patterns : List String) (relPath : String) (isDir : Bool) : Bool :=
  patterns.foldl
    (fun acc r => if globApplies (ruleGlob r) relPath isDir then !(ruleNegated r) else acc)
    false

/-- Modelled from the spec: `GitIgnoreMatcher.within_depth` — `.gitignore`
discovery is active at a directory while its depth is below the
`gitignore_depth` cutoff, and always active without a cutoff (spec §4.2 with
the §8 scenario: at `gitignoreDepth = 0` not even the root's file is read). -/
def within_depth (gitignore_depth : Option Nat) (curDepth : Nat) : Bool :=
  match gitignore_depth with
  | none => true
  | some g => curDepth < g

/-- One line of a `.gitignore` file turned into at most one pattern, exactly
as the loop body shared by `draw_tree.rec`, `build_tree_data.rec` and
`collect_candidate_files.rec` does: strip whitespace; skip blank and `#`
lines; detect and strip a leading `!`; strip leading `/`; attach the
directory's root-relative glob-prefix; re-attach the negation marker. -/
def parseGitignoreLine (prefixPath : String) (line : String) : Option String :=
  let t := pyStrip line
  if t = "" || strStartsWith t "#" then none
  else
    let neg := strStartsWith t "!"
    let pat := if neg then strDrop t 1 else t
    let pat := prefixPath ++ lstripSlashes pat
    some (if neg then "!" ++ pat else pat)

/-- The `patterns = patterns + [...]` accumulation loop over the lines of a
`.gitignore` file, as written identically in the three recursion bodies. -/
def extendPatterns (patterns : List String) (prefixPath : String) (lines : List String) :
    List String :=
  lines.foldl
    (fun ps line =>
      match parseGitignoreLine prefixPath line with
      | none => ps
      | some r => ps ++ [r])
    patterns

/-- Case-insensitive sort key of an entry, Python `e.name.lower()`. -/
def lowerKey (e : FSEntry) : List Char :=
  e.name.data.map Char.toLower

/-- Lexicographic comparison of sort keys. -/
def keyLe : List Char → List Char → Bool
  | [], _ => true
  | _ :: _, [] => false
  | a :: as, b :: bs => if a == b then keyLe as bs else decide (a < b)

/-- Stable insertion into a list sorted case-insensitively by name. -/
def insCI (e : FSEntry) : List FSEntry → List FSEntry
  | [] => [e]
  | x :: xs => if keyLe (lowerKey e) (lowerKey x) then e :: x :: xs else x :: insCI e xs

/-- Stable case-insensitive sort by entry name (Python
`sorted(key=lambda e: e.name.lower())`). -/
def sortCI : List FSEntry → List FSEntry
  | [] => []
  | e :: rest => insCI e (sortCI rest)

/-- Modelled from the spec: the file-type allowlist test of
`matches_file_type` (extension membership), used by the include override. -/
def matchesFileType (name ftype : String) : Bool :=
  let t := if strStartsWith ftype "." then strDrop ftype 1 else ftype
  strEndsWith name ("." ++ t)

/-- Modelled from the spec: the `list_entries` child filter (spec §4.3
EntryFilter), whose source file is not available here.  Given a directory's
raw children it applies, per candidate: the hidden filter, the gitignore
pattern-set filter, the extra-exclude filter (depth-gated), the include
override (a file survives exactly when it matches an include pattern or file
type, which also re-admits hidden/excluded files; directories are
provisionally kept), and the no-files filter; then orders directories and
files case-insensitively by name, grouped with directories first unless
`files_first`; finally applies the per-directory `max_items` cap (disabled by
`no_limit`) and reports the truncated count. -/
def list_entries (children : List FSEntry) (relDir : String) (curDepth : Nat)
    (patterns : List String) (show_all : Bool) (extra_excludes : List String)
    (max_items : Option Nat) (no_limit : Bool) (exclude_depth : Option Nat)
    (no_files : Bool) (include_patterns : List String)
    (include_file_types : List String) (files_first : Bool) :
    List FSEntry × Nat :=
  let keep := fun (e : FSEntry) =>
    let rel := joinRel relDir e.name
    let hiddenDrop := !show_all && strStartsWith e.name "."
    let specDrop := specMatchFile patterns rel e.isDir
    let extraActive := match exclude_depth with | none => true | some k => decide (curDepth ≤ k)
    let extraDrop := extraActive &&
      extra_excludes.any (fun p => globMatch p e.name || globMatch p rel)
    let inclActive := !include_patterns.isEmpty || !include_file_types.isEmpty
    let inclMatch := include_patterns.any (fun p => globApplies (ruleGlob p) rel false) ||
      include_file_types.any (fun t => matchesFileType e.name t)
    if e.isDir then !hiddenDrop && !specDrop && !extraDrop
    else if no_files then false
    else if inclActive then inclMatch
    else !hiddenDrop && !specDrop && !extraDrop
  let kept := children.filter keep
  let dirs := sortCI (kept.filter (fun e => e.isDir))
  let files := sortCI (kept.filter (fun e => !e.isDir))
  let ordered := if files_first then files ++ dirs else dirs ++ files
  match max_items with
  | none => (ordered, 0)
  | some m =>
    if !no_limit && decide (m < ordered.length) then (ordered.take m, ordered.length - m)
    else (ordered, 0)

/-- The traversal configuration: the keyword arguments shared by `draw_tree`,
`build_tree_data` and `collect_candidate_files` (spec §3 TraversalContext). -/
structure Ctx where
  depth : Option Nat := none
  show_all : Bool := false
  extra_excludes : List String := []
  respect_gitignore : Bool := true
  gitignore_depth : Option Nat := none
  max_items : Option Nat := none
  max_entries : Option Nat := none
  no_limit : Bool := false
  exclude_depth : Option Nat := none
  no_files : Bool := false
  whitelist : Option (List String) := none
  include_patterns : List String := []
  include_file_types : List String := []
  files_first : Bool := false

/-- The whitelist filter inlined in `draw_tree.rec` and `build_tree_data.rec`:
a file entry survives when `str(entry.absolute())` is a member of the
whitelist; a directory survives when some whitelisted path string starts with
the directory's absolute path string. -/
def whitelistKeep (whitelist : Option (List String)) (rootAbs relDir : String)
    (e : FSEntry) : Bool :=
  match whitelist with
  | none => true
  | some wl =>
    let entryPath := rootAbs ++ "/" ++ joinRel relDir e.name
    if e.isFile then wl.contains entryPath
    else wl.any (fun f => strStartsWith f entryPath)

/-- One observable output of a traversal: an emitted entry (root-relative
path and directory flag), a per-directory `... and N more items` truncation
line, or a global-cap truncation event — carrying its remaining count in the
renderer (`... and N more entries`) and no count in the exporter
(`... and more entries`). -/
inductive Event where
  | entry (relPath : String) (isDir : Bool)
  | truncItems (n : Nat)
  | truncAgg (n : Option Nat)
deriving DecidableEq

/-- Whether an event is an emitted entry (rather than a truncation notice). -/
def Event.isEntry : Event → Bool
  | .entry _ _ => true
  | _ => false

/-- The renderer's mutable enclosing-scope state in `draw_tree`: the `entries`
counter and whether `truncation_prefix` has been set. -/
structure RSt where
  entries : Nat
  truncHit : Bool
deriving DecidableEq

/-- Python `max_entries is not None and entries >= max_entries`. -/
def capReached (max_entries : Option Nat) (entries : Nat) : Bool :=
  match max_entries with
  | none => false
  | some m => decide (m ≤ entries)

/-- Python `depth is not None and current_depth >= depth`. -/
def depthStop (depth : Option Nat) (curDepth : Nat) : Bool :=
  match depth with
  | none => false
  | some d => decide (d ≤ curDepth)

/-- Locate `dirpath / ".gitignore"` among the children when it is a file,
returning its text and whether reading succeeds. -/
def findGitignore : List FSEntry → Option (String × Bool)
  | [] => none
  | .file n c r :: rest => if n = ".gitignore" then some (c, r) else findGitignore rest
  | .dir _ _ :: rest => findGitignore rest

/-- The `.gitignore` accumulation step shared verbatim by the three recursion
bodies: when gitignore processing is active and `dirpath/.gitignore` is a
file, extend the inherited pattern list with its prefix-rewritten rules.  The
source calls `read_text` without a handler, so a file that exists but cannot
be read propagates an exception, modelled as `Except.error`. -/
def gitignoreStep (respect_gitignore : Bool) (gitignore_depth : Option Nat)
    (children : List FSEntry) (relDir : String) (curDepth : Nat)
    (patterns : List String) : Except Unit (List String) :=
  if respect_gitignore && within_depth gitignore_depth curDepth then
    match findGitignore children with
    | none => .ok patterns
    | some (content, readable) =>
      if readable then
        .ok (extendPatterns patterns (dirPrefixPath relDir) (splitLines content))
      else .error ()
  else .ok patterns

/-- The sibling loop of `draw_tree.rec` (tree_service.py lines 153–191):
below the global cap an entry is written and, for a directory, recursed into;
once the cap is reached entries are only counted, yet the renderer still
recurses into skipped directories so the final aggregate count includes their
contents. -/
def drawLoop
    (recurse : List FSEntry → String → Nat → List String → RSt → Except Unit (List Event × RSt))
    (max_entries : Option Nat) (relDir : String) (curDepth : Nat)
    (patterns : List String) : List FSEntry → RSt → Except Unit (List Event × RSt)
  | [], st => .ok ([], st)
  | e :: rest, st =>
    let rel := joinRel relDir e.name
    if capReached max_entries st.entries then
      let st1 : RSt := ⟨st.entries + 1, true⟩
      match e with
      | .dir _ ch => do
        let (evs, st2) ← recurse ch.toList rel (curDepth + 1) patterns st1
        let (evs2, st3) ← drawLoop recurse max_entries relDir curDepth patterns rest st2
        .ok (evs ++ evs2, st3)
      | .file _ _ _ => drawLoop recurse max_entries relDir curDepth patterns rest st1
    else
      let st1 : RSt := ⟨st.entries + 1, st.truncHit⟩
      match e with
      | .dir _ ch => do
        let (evs, st2) ← recurse ch.toList rel (curDepth + 1) patterns st1
        let (evs2, st3) ← drawLoop recurse max_entries relDir curDepth patterns rest st2
        .ok (Event.entry rel true :: (evs ++ evs2), st3)
      | .file _ _ _ => do
        let (evs2, st2) ← drawLoop recurse max_entries relDir curDepth patterns rest st1
        .ok (Event.entry rel false :: evs2, st2)

/-- The body of `draw_tree.rec`: depth gate, `.gitignore` extension, child
listing, whitelist filter, sibling loop, then the per-directory truncation
line (written only while the global cap is not reached, otherwise counted). -/
def drawRec (ctx : Ctx) (rootAbs : String) :
    Nat → List FSEntry → String → Nat → List String → RSt → Except Unit (List Event × RSt)
  | 0, _, _, _, _, st => .ok ([], st)
  | f + 1, children, relDir, curDepth, patterns, st =>
    if depthStop ctx.depth curDepth then .ok ([], st)
    else do
      let patterns ← gitignoreStep ctx.respect_gitignore ctx.gitignore_depth children relDir
        curDepth patterns
      let listed := list_entries children relDir curDepth patterns ctx.show_all
        ctx.extra_excludes ctx.max_items ctx.no_limit ctx.exclude_depth ctx.no_files
        ctx.include_patterns ctx.include_file_types ctx.files_first
      let entryList := listed.1.filter (whitelistKeep ctx.whitelist rootAbs relDir)
      let (evs, st1) ← drawLoop (drawRec ctx rootAbs f) ctx.max_entries relDir curDepth
        patterns entryList st
      if decide (0 < listed.2) then
        if capReached ctx.max_entries st1.entries then .ok (evs, ⟨st1.entries + 1, true⟩)
        else .ok (evs ++ [Event.truncItems listed.2], ⟨st1.entries + 1, st1.truncHit⟩)
      else .ok (evs, st1)

/-- `draw_tree` (tree_service.py): write the root name, recurse from the root
with depth `0` and an empty pattern list and the `entries` counter already at
`1` for the root line, and finally write the aggregate `... and N more
entries` line when the global cap was hit.  The returned list holds the
events written after the root-name line. -/
def draw_tree (fs : FSEntry) (ctx : Ctx) (rootAbs : String) : Except Unit (List Event) :=
  match fs with
  | .file _ _ _ => .ok []
  | .dir _ children =>
    (drawRec ctx rootAbs (fsFuel fs) children.toList "" 0 [] ⟨1, false⟩).map fun p =>
      if p.2.truncHit then
        p.1 ++ [Event.truncAgg (some (p.2.entries - ctx.max_entries.getD 0))]
      else p.1

mutual
/-- A node of the hierarchical tree data built by `build_tree_data`: the
dictionaries `{"name",...,"type": "file"|"directory"|"truncated"}` of
tree_formatting_service.py.  The two truncation markers are distinguished:
the per-directory `... and {truncated} more items` carries its count, while
the global-cap `... and more entries` carries none (the computed `remaining`
value on line 127 of the source is never used). -/
inductive TreeNode where
  | fileN (name : String) (path : String) (contents : Option String)
  | dirN (name : String) (children : TreeNodes)
  | truncCounted (n : Nat)
  | truncUncounted

/-- A list of tree-data nodes (a `children` array). -/
inductive TreeNodes where
  | nil
  | cons (hd : TreeNode) (tl : TreeNodes)
end

/-- Concatenation of node lists. -/
def TreeNodes.append : TreeNodes → TreeNodes → TreeNodes
  | .nil, ys => ys
  | .cons x xs, ys => .cons x (TreeNodes.append xs ys)

/-- The exporter's mutable enclosing-scope state in `build_tree_data`: the
`entries` counter and the `stop_writing` flag. -/
structure ESt where
  entries : Nat
  stop : Bool
deriving DecidableEq

/-- The sibling loop of `build_tree_data.rec` (tree_formatting_service.py
lines 122–153): `break` once `stop_writing` is set; when the global cap is
reached append one uncounted truncation marker, set `stop_writing` and break;
otherwise emit a file node (optionally with contents) or recurse into a
directory node. -/
def exLoop
    (recurse : List FSEntry → String → Nat → List String → ESt → Except Unit (TreeNodes × ESt))
    (max_entries : Option Nat) (include_contents : Bool) (no_contents_for : List String)
    (rootAbs relDir : String) (curDepth : Nat) (patterns : List String) :
    List FSEntry → ESt → Except Unit (TreeNodes × ESt)
  | [], st => .ok (.nil, st)
  | e :: rest, st =>
    if st.stop then .ok (.nil, st)
    else if capReached max_entries st.entries then
      .ok (.cons .truncUncounted .nil, ⟨st.entries, true⟩)
    else
      match e with
      | .file n c _ => do
        let node := TreeNode.fileN n (joinRel relDir n)
          (if include_contents &&
              !(no_contents_for.contains (rootAbs ++ "/" ++ joinRel relDir n)) then
            some c
          else none)
        let (ns2, st2) ← exLoop recurse max_entries include_contents no_contents_for rootAbs
          relDir curDepth patterns rest ⟨st.entries + 1, st.stop⟩
        .ok (.cons node ns2, st2)
      | .dir n ch => do
        let (cns, st1) ← recurse ch.toList (joinRel relDir n) (curDepth + 1) patterns
          ⟨st.entries + 1, st.stop⟩
        let (ns2, st2) ← exLoop recurse max_entries include_contents no_contents_for rootAbs
          relDir curDepth patterns rest st1
        .ok (.cons (TreeNode.dirN n cns) ns2, st2)

/-- The body of `build_tree_data.rec`: depth gate, `stop_writing` gate,
`.gitignore` extension, child listing (the exporter does not forward
`no_limit` or `files_first`, so they take their Python defaults; it forwards
`max_entries`, for which the spec's EntryFilter contract has no parameter),
whitelist filter, sibling loop, then the counted per-directory truncation
marker when not stopped. -/
def buildRec (ctx : Ctx) (rootAbs : String) (include_contents : Bool)
    (no_contents_for : List String) :
    Nat → List FSEntry → String → Nat → List String → ESt → Except Unit (TreeNodes × ESt)
  | 0, _, _, _, _, st => .ok (.nil, st)
  | f + 1, children, relDir, curDepth, patterns, st =>
    if depthStop ctx.depth curDepth then .ok (.nil, st)
    else if st.stop then .ok (.nil, st)
    else do
      let patterns ← gitignoreStep ctx.respect_gitignore ctx.gitignore_depth children relDir
        curDepth patterns
      let listed := list_entries children relDir curDepth patterns ctx.show_all
        ctx.extra_excludes ctx.max_items false ctx.exclude_depth ctx.no_files
        ctx.include_patterns ctx.include_file_types false
      let entryList := listed.1.filter (whitelistKeep ctx.whitelist rootAbs relDir)
      let (ns, st1) ← exLoop (buildRec ctx rootAbs include_contents no_contents_for f)
        ctx.max_entries include_contents no_contents_for rootAbs relDir curDepth patterns
        entryList st
      if decide (0 < listed.2) && !st1.stop then
        .ok (ns.append (.cons (.truncCounted listed.2) .nil), ⟨st1.entries + 1, st1.stop⟩)
      else .ok (ns, st1)

/-- `build_tree_data` (tree_formatting_service.py): the root dictionary with
the recursively built children, the `entries` counter starting at `1` for
the root. -/
def build_tree_data (fs : FSEntry) (ctx : Ctx) (rootAbs : String) (include_contents : Bool)
    (no_contents_for : List String) : Except Unit TreeNode :=
  match fs with
  | .file n _ _ => .ok (.dirN n .nil)
  | .dir n children =>
    (buildRec ctx rootAbs include_contents no_contents_for (fsFuel fs) children.toList "" 0 []
      ⟨1, false⟩).map fun p => .dirN n p.1

/-- Flatten exporter tree data into the visitation-event sequence it
records: pre-order, one event per node, reconstructing each directory's
root-relative path. -/
def flattenTN (relDir : String) : TreeNodes → List Event
  | .nil => []
  | .cons (.fileN _ p _) tl => .entry p false :: flattenTN relDir tl
  | .cons (.dirN n ch) tl =>
    .entry (joinRel relDir n) true ::
      (flattenTN (joinRel relDir n) ch ++ flattenTN relDir tl)
  | .cons (.truncCounted k) tl => .truncItems k :: flattenTN relDir tl
  | .cons .truncUncounted tl => .truncAgg none :: flattenTN relDir tl

/-- The entries visited and truncations reported by the exporter path, in
order. -/
def exportEvents (fs : FSEntry) (ctx : Ctx) (rootAbs : String) (include_contents : Bool)
    (no_contents_for : List String) : Except Unit (List Event) :=
  (build_tree_data fs ctx rootAbs include_contents no_contents_for).map fun t =>
    match t with
    | .dirN _ ch => flattenTN "" ch
    | _ => []

/-- The sibling loop of `collect_candidate_files.rec` (files_selection.py
lines 71–75): recurse into directories, record each file's root-relative
POSIX path. -/
def collectLoop
    (recurse : List FSEntry → String → Nat → List String → Except Unit (List String))
    (relDir : String) (curDepth : Nat) (patterns : List String) :
    List FSEntry → Except Unit (List String)
  | [] => .ok []
  | e :: rest =>
    match e with
    | .dir n ch => do
      let a ← recurse ch.toList (joinRel relDir n) (curDepth + 1) patterns
      let b ← collectLoop recurse relDir curDepth patterns rest
      .ok (a ++ b)
    | .file n _ _ => do
      let b ← collectLoop recurse relDir curDepth patterns rest
      .ok (joinRel relDir n :: b)

/-- The body of `collect_candidate_files.rec`: depth gate, `.gitignore`
extension, child listing with `max_items=None` (selection never truncates)
and the remaining call-site defaults, then the sibling loop.  The collector
applies no whitelist filter and keeps no counters. -/
def collectRec (ctx : Ctx) :
    Nat → List FSEntry → String → Nat → List String → Except Unit (List String)
  | 0, _, _, _, _ => .ok []
  | f + 1, children, relDir, curDepth, patterns =>
    if depthStop ctx.depth curDepth then .ok []
    else do
      let patterns ← gitignoreStep ctx.respect_gitignore ctx.gitignore_depth children relDir
        curDepth patterns
      let listed := list_entries children relDir curDepth patterns ctx.show_all
        ctx.extra_excludes none false ctx.exclude_depth ctx.no_files
        ctx.include_patterns ctx.include_file_types false
      collectLoop (collectRec ctx f) relDir curDepth patterns listed.1

/-- `collect_candidate_files` (files_selection.py): traverse the root once
and return the candidate file paths, relative to the root in POSIX style;
for a single-file root, the root's own name unless `no_files`. -/
def collect_candidate_files (fs : FSEntry) (ctx : Ctx) : Except Unit (List String) :=
  match fs with
  | .dir _ children => collectRec ctx (fsFuel fs) children.toList "" 0 []
  | .file n _ _ => .ok (if ctx.no_files then [] else [n])

/-- `resolve_selected_files` (files_selection.py), non-interactive path: the
final selected file paths relative to root are exactly the candidates (the
interactive path prompts through the external questionary library and
returns a subset of the same candidates). -/
def resolve_selected_files (fs : FSEntry) (ctx : Ctx) : Except Unit (List String) :=
  collect_candidate_files fs ctx

/-- The attributes defined by the `Logger` class of gitree/utilities/logger.py:
its methods and the `_messages` field set in `__init__`. -/
def loggerAttributes : List String :=
  ["__init__", "_messages", "log", "flush", "clear", "__len__", "get_logs"]

/-- A Python exception kind relevant to the logger model. -/
inductive PyErr where
  | attributeError
deriving DecidableEq

/-- The state of an `OutputBuffer`'s wrapped `Logger`. -/
structure OutputBufferState where
  messages : List String
deriving DecidableEq

/-- `OutputBuffer.write` (logger.py lines 81–88): it evaluates
`self.logger.store(message)`; attribute lookup of `store` on the `Logger`
instance succeeds only if the class defines it, otherwise Python raises
`AttributeError`. -/
def OutputBuffer.write (st : OutputBufferState) (message : String) :
    Except PyErr OutputBufferState :=
  if loggerAttributes.contains "store" then .ok ⟨st.messages ++ [message]⟩
  else .error .attributeError

/-- `draw_tree` called with an `OutputBuffer` from logger.py: its first
action after constructing the `GitIgnoreMatcher` is
`output_buffer.write(root.name)` (tree_service.py line 67); only if that
write returns does the traversal proceed. -/
def draw_tree_via_output_buffer (fs : FSEntry) (ctx : Ctx) (rootAbs : String)
    (st : OutputBufferState) :
    Except PyErr (OutputBufferState × Except Unit (List Event)) := do
  let st1 ← OutputBuffer.write st fs.name
  .ok (st1, draw_tree fs ctx rootAbs)

/-- Whether one compiled rule applies to a path (its glob matches, ignoring
the negation flag). -/
def ruleApplies (relPath : String) (isDir : Bool) (r : String) : Bool :=
  globApplies (ruleGlob r) relPath isDir

/-- The spec's wording of pattern matching: the last rule in the effective
set that matches the path determines the outcome (excluded unless that rule
is negated), and a path no rule matches is not excluded. -/
def lastMatchVerdict (patterns : List String) (relPath : String) (isDir : Bool) : Bool :=
  match patterns.reverse.find? (ruleApplies relPath isDir) with
  | some r => !(ruleNegated r)
  | none => false

/-- The whitelist condition actually enforced by the traversal on an emitted
event: a file's absolute path is a whitelist member; for a directory some
whitelisted path string starts with the directory's absolute path string. -/
def wlOk (wl : List String) (rootAbs : String) : Event → Prop
  | .entry rel true => ∃ f ∈ wl, strStartsWith f (rootAbs ++ "/" ++ rel) = true
  | .entry rel false => (rootAbs ++ "/" ++ rel) ∈ wl
  | _ => True

/-- Alignment of one renderer outcome with one exporter outcome: both fail,
or both succeed with the exporter's flattened nodes equal to the renderer's
events, the renderer's truncation flag unchanged and the exporter not
stopped. -/
def alignsAt (relDir : String) (th : Bool) (a : Except Unit (List Event × RSt))
    (b : Except Unit (TreeNodes × ESt)) : Prop :=
  match a, b with
  | .ok p, .ok q => p.1 = flattenTN relDir q.1 ∧ p.2.truncHit = th ∧ q.2.stop = false
  | .error _, .error _ => True
  | _, _ => False

/-- Every file in a child list is readable. -/
def allReadableL : FSL → Bool
  | .nil => true
  | .cons (.file _ _ r) tl => r && allReadableL tl
  | .cons (.dir _ ch) tl => allReadableL ch && allReadableL tl

/-- Every file in a snapshot is readable. -/
def allReadable : FSEntry → Bool
  | .file _ _ r => r
  | .dir _ ch => allReadableL ch

/-- The string does not begin with a `/` character. -/
def noLeadSlash (s : String) : Prop :=
  s.data.head? ≠ some '/'

/-- No entry name in a child list begins with `/` (true of any real
filesystem, where `/` is the separator and cannot occur inside a name). -/
def namesOkL : FSL → Bool
  | .nil => true
  | .cons (.file n _ _) tl => !strStartsWith n "/" && namesOkL tl
  | .cons (.dir n ch) tl => !strStartsWith n "/" && namesOkL ch && namesOkL tl

/-- No entry name in a snapshot begins with `/`. -/
def namesOk : FSEntry → Bool
  | .file n _ _ => !strStartsWith n "/"
  | .dir n ch => !strStartsWith n "/" && namesOkL ch

/-- The spec §8 scenario snapshot: root `/p` containing `src/main.py`,
`src/.gitignore` (with rule `*.pyc`), `src/main.pyc`, and `.hidden`. -/
def demoTree : FSEntry :=
  .dir "p" (FSL.ofList
    [ .dir "src" (FSL.ofList
        [ .file "main.py" "print(1)" true
        , .file ".gitignore" "*.pyc" true
        , .file "main.pyc" "" true ])
    , .file ".hidden" "" true ])

/-- A snapshot for the whitelist filter: root `/p` containing only
`src/a.txt`. -/
def wlTree : FSEntry :=
  .dir "p" (FSL.ofList [.dir "src" (FSL.ofList [.file "a.txt" "x" true])])

theorem ok_bind {α β : Type} (a : α) (f : α → Except Unit β) :
    (Except.ok a >>= f : Except Unit β) = f a := rfl

theorem extendPatterns_eq (pre : String) (lines : List String) : ∀ inherited : List String,
    extendPatterns inherited pre lines = inherited ++ lines.filterMap (parseGitignoreLine pre) := by
  induction lines with
  | nil => intro inh; simp [extendPatterns]
  | cons l ls ih =>
    intro inh
    show (l :: ls).foldl _ inh = _
    rw [List.foldl_cons, List.filterMap_cons]
    cases h : parseGitignoreLine pre l with
    | none =>
      simp only [h]
      exact ih inh
    | some r =>
      simp only [h]
      rw [show (ls.foldl _ (inh ++ [r]) : List String) = extendPatterns (inh ++ [r]) pre ls
        from rfl]
      rw [ih (inh ++ [r]), List.append_assoc]
      rfl

/-- C2: a `.gitignore` file is parsed line by line so that blank lines and
`#` lines contribute no rule; a leading `!` is stripped and recorded as
negation; leading `/` is stripped from the remainder; the remainder is
prefixed with the directory's root-relative path; the negation marker is
re-attached; and the results are appended after all inherited rules, in
order. -/
theorem c2_gitignore_line_parsing (pre : String) :
    (∀ (inherited lines : List String),
        extendPatterns inherited pre lines
          = inherited ++ lines.filterMap (parseGitignoreLine pre)) ∧
    (∀ line : String, pyStrip line = "" ∨ strStartsWith (pyStrip line) "#" = true →
        parseGitignoreLine pre line = none) ∧
    (∀ line : String, ¬(pyStrip line = "" ∨ strStartsWith (pyStrip line) "#" = true) →
        strStartsWith (pyStrip line) "!" = true →
        parseGitignoreLine pre line
          = some ("!" ++ (pre ++ lstripSlashes (strDrop (pyStrip line) 1)))) ∧
    (∀ line : String, ¬(pyStrip line = "" ∨ strStartsWith (pyStrip line) "#" = true) →
        strStartsWith (pyStrip line) "!" = false →
        parseGitignoreLine pre line = some (pre ++ lstripSlashes (pyStrip line))) := by
  refine ⟨fun inh lines => extendPatterns_eq pre lines inh, ?_, ?_, ?_⟩
  · intro line h
    rcases h with h | h <;> simp [parseGitignoreLine, h]
  · intro line h hneg
    push_neg at h
    simp [parseGitignoreLine, h.1, h.2, hneg]
  · intro line h hneg
    push_neg at h
    simp [parseGitignoreLine, h.1, h.2, hneg]

/-- Witness for C2 at concrete inputs: a blank line, a `#` comment, a negated
slash-prefixed rule and a plain slash-prefixed rule in directory `src`. -/
theorem c2_gitignore_line_parsing_witness :
    extendPatterns ["a"] "src/" ["", "#c", " !/x ", "/y"] = ["a", "!src/x", "src/y"] ∧
    parseGitignoreLine "src/" "" = none := by
  constructor
  · exact ((c2_gitignore_line_parsing "src/").1 ["a"] ["", "#c", " !/x ", "/y"]).trans (by decide)
  · exact (c2_gitignore_line_parsing "src/").2.1 "" (Or.inl (by decide))

theorem specFold_eq (relPath : String) (isDir : Bool) :
    ∀ (patterns : List String) (acc : Bool),
    patterns.foldl
        (fun acc r => if globApplies (ruleGlob r) relPath isDir then !(ruleNegated r) else acc)
        acc
      = (match patterns.reverse.find? (ruleApplies relPath isDir) with
          | some r => !(ruleNegated r)
          | none => acc) := by
  intro patterns
  induction patterns with
  | nil => intro acc; rfl
  | cons r rs ih =>
    intro acc
    rw [List.foldl_cons, ih, List.reverse_cons, List.find?_append]
    cases h : rs.reverse.find? (ruleApplies relPath isDir) with
    | some r' => rfl
    | none =>
      cases hr : globApplies (ruleGlob r) relPath isDir with
      | true => simp [List.find?, ruleApplies, hr]
      | false => simp [List.find?, ruleApplies, hr]

/-- C3: matching an effective pattern set is order-sensitive with
last-match-wins semantics — the last rule that applies to the path decides
exclusion, wherever the rule came from; with rules `["*.log", "!keep.log"]`,
`keep.log` is not excluded while `other.log` is. -/
theorem c3_last_match_wins :
    (∀ (patterns : List String) (relPath : String) (isDir : Bool),
        specMatchFile patterns relPath isDir = lastMatchVerdict patterns relPath isDir) ∧
    specMatchFile ["*.log", "!keep.log"] "keep.log" false = false ∧
    specMatchFile ["*.log", "!keep.log"] "other.log" false = true := by
  refine ⟨?_, by decide, by decide⟩
  intro patterns relPath isDir
  exact specFold_eq relPath isDir patterns false

/-- C9: `OutputBuffer.write` always raises `AttributeError`, because the
wrapped `Logger` class defines no `store` attribute; consequently a
`draw_tree` call writing through such a buffer fails on its very first
write, before any traversal happens. -/
theorem c9_outputbuffer_write_attribute_error :
    (∀ (st : OutputBufferState) (message : String),
        OutputBuffer.write st message = .error .attributeError) ∧
    (∀ (fs : FSEntry) (ctx : Ctx) (rootAbs : String) (st : OutputBufferState),
        draw_tree_via_output_buffer fs ctx rootAbs st = .error .attributeError) := by
  exact ⟨fun st message => rfl, fun fs ctx rootAbs st => rfl⟩

theorem drawRec_stopped (ctx : Ctx) (rootAbs : String) (fuel : Nat) (children : List FSEntry)
    (relDir : String) (curDepth : Nat) (patterns : List String) (st : RSt)
    (h : depthStop ctx.depth curDepth = true) :
    drawRec ctx rootAbs fuel children relDir curDepth patterns st = .ok ([], st) := by
  cases fuel with
  | zero => rfl
  | succ f => simp [drawRec, h]

/-- C8: with a depth limit of `0` the traversal emits no child entries at
all: the root's name is the only line written and no recursion into any
child happens. -/
theorem c8_max_depth_zero (fs : FSEntry) (ctx : Ctx) (rootAbs : String)
    (h : ctx.depth = some 0) : draw_tree fs ctx rootAbs = .ok [] := by
  cases fs with
  | file n c r => rfl
  | dir n ch =>
    show (drawRec ctx rootAbs _ _ _ _ _ _).map _ = _
    rw [drawRec_stopped ctx rootAbs _ _ _ _ _ _ (by simp [depthStop, h])]
    rfl

/-- Witness for C8 on the spec §8 snapshot. -/
theorem c8_max_depth_zero_witness :
    draw_tree demoTree { depth := some 0 } "/p" = .ok [] :=
  c8_max_depth_zero demoTree { depth := some 0 } "/p" rfl

/-- Counterexample to C6: on the spec §8 snapshot with `max_entries = 1`,
the traversal does not emit the entry `src/` first (or at all) — the root
line already consumes the whole budget, so the output after the root line is
just the aggregate truncation event. -/
theorem c6_counterexample :
    draw_tree demoTree { max_entries := some 1 } "/p" = .ok [Event.truncAgg (some 2)] ∧
    ∀ rest : List Event,
      draw_tree demoTree { max_entries := some 1 } "/p"
        ≠ .ok (Event.entry "src" true :: rest) := by
  constructor
  · rfl
  · intro rest h
    have h2 : (Except.ok [Event.truncAgg (some 2)] : Except Unit (List Event))
        = .ok (Event.entry "src" true :: rest) := by
      rw [← h]; rfl
    simp at h2

/-- C6 as amended: with `max_entries = 1` the root-name line itself consumes
the entire budget (the `entries` counter starts at `1` for it), so zero
child entries are emitted — in particular `main.py` is never emitted — and a
single aggregate truncation event `... and 2 more entries` follows, its
count having been accumulated by recursing through the skipped entries. -/
theorem c6_cap_one_aggregate_only :
    draw_tree demoTree { max_entries := some 1 } "/p" = .ok [Event.truncAgg (some 2)] ∧
    (∀ evs, draw_tree demoTree { max_entries := some 1 } "/p" = .ok evs →
      evs.all (fun ev => !ev.isEntry) = true) := by
  constructor
  · rfl
  · intro evs h
    have h2 : (Except.ok [Event.truncAgg (some 2)] : Except Unit (List Event)) = .ok evs := by
      rw [← h]; rfl
    cases h2
    decide

/-- Counterexample to C7: a `.gitignore` that exists but cannot be read (the
`read_text` call raises, e.g. permission denied) aborts the whole traversal —
the exception propagates out of `draw_tree`, because the read on
tree_service.py line 87 has no handler. -/
theorem c7_counterexample :
    draw_tree (FSEntry.dir "p" (FSL.ofList [FSEntry.file ".gitignore" "build/" false])) {} "/p"
      = .error () := by
  rfl

/-- Counterexample to C5: with whitelist `{"/p/srcx"}` the directory
`/p/src` is emitted (the code keeps a directory when any whitelisted path
merely string-starts-with the directory's absolute path), even though no
whitelisted path lies under `/p/src`. -/
theorem c5_counterexample :
    draw_tree wlTree { whitelist := some ["/p/srcx"] } "/p" = .ok [Event.entry "src" true] ∧
    (["/p/srcx"].all fun f => !strStartsWith f "/p/src/") = true := by
  exact ⟨rfl, by decide⟩

/-- Counterexample to C1: on the spec §8 snapshot with `max_entries = 2`,
the renderer and the exporter emit the same entry but report different
truncation events once the global cap is hit mid-subtree: the renderer keeps
recursing and reports a counted `... and 1 more entries` aggregate, the
exporter stops immediately and reports an uncounted `... and more entries`
marker. -/
theorem c1_counterexample :
    draw_tree demoTree { max_entries := some 2 } "/p"
      = .ok [Event.entry "src" true, Event.truncAgg (some 1)] ∧
    exportEvents demoTree { max_entries := some 2 } "/p" true []
      = .ok [Event.entry "src" true, Event.truncAgg none] ∧
    draw_tree demoTree { max_entries := some 2 } "/p"
      ≠ exportEvents demoTree { max_entries := some 2 } "/p" true [] := by
  refine ⟨rfl, rfl, ?_⟩
  intro h
  have h1 : draw_tree demoTree { max_entries := some 2 } "/p"
      = .ok [Event.entry "src" true, Event.truncAgg (some 1)] := rfl
  have h2 : exportEvents demoTree { max_entries := some 2 } "/p" true []
      = .ok [Event.entry "src" true, Event.truncAgg none] := rfl
  rw [h1, h2] at h
  simp at h

/-- C4: the pattern list is handed down copy-on-extend, never mutated.
Part one: the pattern list a directory hands to each of its children is
exactly the inherited list with the directory's own prefix-rewritten
`.gitignore` rules appended.  Part two: in the selection traversal the
contribution of the remaining siblings is independent of the first child's
subtree — replacing one child subtree (for example, changing its local
`.gitignore`) leaves the siblings' collected output unchanged, because each
sibling is filtered against the same un-mutated pattern list. -/
theorem c4_pattern_isolation :
    (∀ (gd : Option Nat) (children : List FSEntry) (relDir : String) (curDepth : Nat)
        (patterns : List String) (content : String),
        within_depth gd curDepth = true →
        findGitignore children = some (content, true) →
        gitignoreStep true gd children relDir curDepth patterns
          = .ok (patterns ++
              (splitLines content).filterMap (parseGitignoreLine (dirPrefixPath relDir)))) ∧
    (∀ (ctx : Ctx) (f : Nat) (relDir : String) (curDepth : Nat) (patterns : List String)
        (n : String) (ch : FSL) (n' : String) (ch' : FSL) (rest : List FSEntry)
        (a a' : List String),
        collectRec ctx f ch.toList (joinRel relDir n) (curDepth + 1) patterns = .ok a →
        collectRec ctx f ch'.toList (joinRel relDir n') (curDepth + 1) patterns = .ok a' →
        (collectLoop (collectRec ctx f) relDir curDepth patterns
            (.dir n ch :: rest)).map (fun l => l.drop a.length)
          = (collectLoop (collectRec ctx f) relDir curDepth patterns
              (.dir n' ch' :: rest)).map (fun l => l.drop a'.length)) := by
  constructor
  · intro gd children relDir curDepth patterns content hw hf
    simp [gitignoreStep, hw, hf, extendPatterns_eq]
  · intro ctx f relDir curDepth patterns n ch n' ch' rest a a' ha ha'
    simp only [collectLoop, ha, ha']
    cases hb : collectLoop (collectRec ctx f) relDir curDepth patterns rest with
    | error e => rfl
    | ok b =>
      show Except.ok ((a ++ b).drop a.length) = Except.ok ((a' ++ b).drop a'.length)
      rw [List.drop_left, List.drop_left]

/-- Witness for C4: a root-level `.gitignore` with one rule extends an
inherited list by appending, and two different first-child subtrees leave
the sibling contribution (`b.txt`) unchanged. -/
theorem c4_pattern_isolation_witness :
    gitignoreStep true none [FSEntry.file ".gitignore" "x.txt" true] "" 0 ["inh"]
      = .ok ["inh", "x.txt"] ∧
    (collectLoop (collectRec {} 1) "" 0 []
        (.dir "d" (FSL.ofList [.file "c1.txt" "" true]) :: [.file "b.txt" "" true])).map
          (fun l => l.drop ["d/c1.txt"].length)
      = (collectLoop (collectRec {} 1) "" 0 []
          (.dir "d" (FSL.ofList [.file "c2.txt" "" true]) :: [.file "b.txt" "" true])).map
            (fun l => l.drop ["d/c2.txt"].length) := by
  constructor
  · exact (c4_pattern_isolation.1 none [FSEntry.file ".gitignore" "x.txt" true] "" 0 ["inh"]
      "x.txt" (by decide) (by decide)).trans (by rfl)
  · exact c4_pattern_isolation.2 {} 1 "" 0 [] "d" (FSL.ofList [.file "c1.txt" "" true])
      "d" (FSL.ofList [.file "c2.txt" "" true]) [.file "b.txt" "" true]
      ["d/c1.txt"] ["d/c2.txt"] rfl rfl

theorem allReadableL_toList : ∀ l : FSL, allReadableL l = true →
    ∀ e ∈ l.toList, allReadable e = true
  | .nil, _, e, he => by simp [FSL.toList] at he
  | .cons (.file n c r) tl, h, e, he => by
    simp only [allReadableL, Bool.and_eq_true] at h
    rcases (by simpa [FSL.toList] using he : e = FSEntry.file n c r ∨ e ∈ tl.toList) with h1 | h1
    · subst h1; exact h.1
    · exact allReadableL_toList tl h.2 e h1
  | .cons (.dir n ch) tl, h, e, he => by
    simp only [allReadableL, Bool.and_eq_true] at h
    rcases (by simpa [FSL.toList] using he : e = FSEntry.dir n ch ∨ e ∈ tl.toList) with h1 | h1
    · subst h1; exact h.1
    · exact allReadableL_toList tl h.2 e h1

theorem findGitignore_readable : ∀ (l : List FSEntry) (c : String) (r : Bool),
    findGitignore l = some (c, r) → (∀ e ∈ l, allReadable e = true) → r = true := by
  intro l
  induction l with
  | nil => intro c r h _; simp [findGitignore] at h
  | cons e rest ih =>
    intro c r h henv
    cases e with
    | file n c' r' =>
      by_cases hn : n = ".gitignore"
      · rw [findGitignore, if_pos hn] at h
        cases h
        exact henv _ (List.mem_cons_self _ _)
      · rw [findGitignore, if_neg hn] at h
        exact ih c r h fun e' he' => henv e' (by simp [he'])
    | dir n ch =>
      rw [findGitignore] at h
      exact ih c r h fun e' he' => henv e' (by simp [he'])

theorem gitignoreStep_ok (rg : Bool) (gd : Option Nat) (children : List FSEntry)
    (relDir : String) (curDepth : Nat) (patterns : List String)
    (henv : ∀ e ∈ children, allReadable e = true) :
    ∃ ps, gitignoreStep rg gd children relDir curDepth patterns = .ok ps := by
  unfold gitignoreStep
  by_cases hc : (rg && within_depth gd curDepth) = true
  · rw [if_pos hc]
    cases hf : findGitignore children with
    | none => exact ⟨patterns, rfl⟩
    | some p =>
      obtain ⟨c, r⟩ := p
      have hr : r = true := findGitignore_readable children c r hf henv
      subst hr
      exact ⟨_, rfl⟩
  · rw [if_neg hc]
    exact ⟨patterns, rfl⟩

theorem insCI_mem : ∀ (x e : FSEntry) (l : List FSEntry), x ∈ insCI e l → x = e ∨ x ∈ l := by
  intro x e l
  induction l with
  | nil => intro h; simpa [insCI] using h
  | cons y ys ih =>
    intro h
    rw [insCI] at h
    by_cases hk : keyLe (lowerKey e) (lowerKey y) = true
    · rw [if_pos hk] at h
      rcases (by simpa using h) with h1 | h1 | h1
      · exact Or.inl h1
      · exact Or.inr (by simp [h1])
      · exact Or.inr (by simp [h1])
    · rw [if_neg hk] at h
      rcases (by simpa using h) with h1 | h1
      · exact Or.inr (by simp [h1])
      · rcases ih h1 with h2 | h2
        · exact Or.inl h2
        · exact Or.inr (by simp [h2])

theorem sortCI_mem : ∀ (x : FSEntry) (l : List FSEntry), x ∈ sortCI l → x ∈ l := by
  intro x l
  induction l with
  | nil => intro h; simp [sortCI] at h
  | cons y ys ih =>
    intro h
    rw [sortCI] at h
    rcases insCI_mem x y (sortCI ys) h with h1 | h1
    · simp [h1]
    · simp [ih h1]

theorem list_entries_mem (children : List FSEntry) (relDir : String) (curDepth : Nat)
    (patterns : List String) (show_all : Bool) (extra_excludes : List String)
    (max_items : Option Nat) (no_limit : Bool) (exclude_depth : Option Nat)
    (no_files : Bool) (include_patterns include_file_types : List String)
    (files_first : Bool) (e : FSEntry)
    (h : e ∈ (list_entries children relDir curDepth patterns show_all extra_excludes
        max_items no_limit exclude_depth no_files include_patterns include_file_types
        files_first).1) :
    e ∈ children := by
  have hgrp : ∀ (k p : FSEntry → Bool) (x : FSEntry),
      x ∈ sortCI ((children.filter k).filter p) → x ∈ children := fun k p x hx =>
    (List.mem_filter.1 (List.mem_filter.1 (sortCI_mem x _ hx)).1).1
  have hord : ∀ (k : FSEntry → Bool) (x : FSEntry),
      x ∈ (if files_first = true
            then sortCI ((children.filter k).filter fun e => !e.isDir)
                  ++ sortCI ((children.filter k).filter fun e => e.isDir)
            else sortCI ((children.filter k).filter fun e => e.isDir)
                  ++ sortCI ((children.filter k).filter fun e => !e.isDir)) →
        x ∈ children := by
    intro k x hx
    split at hx <;> rcases List.mem_append.1 hx with h1 | h1 <;> exact hgrp k _ x h1
  have pair_take : ∀ (ordered : List FSEntry) (m : Nat) (c : Bool) (x : FSEntry),
      x ∈ (if c = true then (ordered.take m, ordered.length - m) else (ordered, 0)).1 →
        x ∈ ordered := by
    intro ordered m c x hx
    split at hx
    · exact List.take_subset _ _ hx
    · exact hx
  cases max_items with
  | none => exact hord _ e h
  | some m => exact hord _ e (pair_take _ m _ e h)

theorem drawLoop_ok (me : Option Nat) (relDir : String) (curDepth : Nat)
    (patterns : List String)
    (recurse : List FSEntry → String → Nat → List String → RSt → Except Unit (List Event × RSt))
    (hrec : ∀ (ch : List FSEntry) (rel : String) (d : Nat) (pats : List String) (st : RSt),
        (∀ e ∈ ch, allReadable e = true) → ∃ out, recurse ch rel d pats st = .ok out) :
    ∀ (l : List FSEntry) (st : RSt), (∀ e ∈ l, allReadable e = true) →
      ∃ out, drawLoop recurse me relDir curDepth patterns l st = .ok out := by
  intro l
  induction l with
  | nil => intro st _; exact ⟨([], st), rfl⟩
  | cons e rest ih =>
    intro st henv
    have hrest : ∀ e' ∈ rest, allReadable e' = true := fun e' he' => henv e' (by simp [he'])
    rw [drawLoop]
    cases e with
    | file n c r =>
      by_cases hcap : capReached me st.entries = true
      · rw [if_pos hcap]
        exact ih _ hrest
      · rw [if_neg hcap]
        obtain ⟨out, hout⟩ := ih ⟨st.entries + 1, st.truncHit⟩ hrest
        exact ⟨_, by dsimp only; rw [hout]; rfl⟩
    | dir n ch =>
      have hch : ∀ e' ∈ ch.toList, allReadable e' = true :=
        allReadableL_toList ch (henv (FSEntry.dir n ch) (List.mem_cons_self _ _))
      by_cases hcap : capReached me st.entries = true
      · rw [if_pos hcap]
        obtain ⟨⟨evs, st2⟩, hout⟩ := hrec ch.toList _ (curDepth + 1) patterns
          ⟨st.entries + 1, true⟩ hch
        obtain ⟨out2, hout2⟩ := ih st2 hrest
        exact ⟨_, by
          dsimp only; rw [hout]; simp only [ok_bind]; rw [hout2]; simp only [ok_bind]; rfl⟩
      · rw [if_neg hcap]
        obtain ⟨⟨evs, st2⟩, hout⟩ := hrec ch.toList _ (curDepth + 1) patterns
          ⟨st.entries + 1, st.truncHit⟩ hch
        obtain ⟨out2, hout2⟩ := ih st2 hrest
        exact ⟨_, by
          dsimp only; rw [hout]; simp only [ok_bind]; rw [hout2]; simp only [ok_bind]; rfl⟩

theorem drawRec_ok (ctx : Ctx) (rootAbs : String) : ∀ (fuel : Nat) (children : List FSEntry)
    (relDir : String) (curDepth : Nat) (patterns : List String) (st : RSt),
    (∀ e ∈ children, allReadable e = true) →
    ∃ out, drawRec ctx rootAbs fuel children relDir curDepth patterns st = .ok out := by
  intro fuel
  induction fuel with
  | zero => intro children relDir curDepth patterns st _; exact ⟨([], st), rfl⟩
  | succ f ih =>
    intro children relDir curDepth patterns st henv
    rw [drawRec]
    by_cases hd : depthStop ctx.depth curDepth = true
    · rw [if_pos hd]; exact ⟨([], st), rfl⟩
    · rw [if_neg hd]
      obtain ⟨ps, hps⟩ := gitignoreStep_ok ctx.respect_gitignore ctx.gitignore_depth children
        relDir curDepth patterns henv
      have henv' : ∀ e ∈ (list_entries children relDir curDepth ps ctx.show_all
          ctx.extra_excludes ctx.max_items ctx.no_limit ctx.exclude_depth ctx.no_files
          ctx.include_patterns ctx.include_file_types ctx.files_first).1.filter
            (whitelistKeep ctx.whitelist rootAbs relDir), allReadable e = true := by
        intro e he
        exact henv e (list_entries_mem _ _ _ _ _ _ _ _ _ _ _ _ _ e (List.mem_filter.1 he).1)
      obtain ⟨⟨evs, st1⟩, hloop⟩ := drawLoop_ok ctx.max_entries relDir curDepth ps
        (drawRec ctx rootAbs f)
        (fun ch rel d pats st' hch => ih ch rel d pats st' hch) _ st henv'
      by_cases ht : decide (0 < (list_entries children relDir curDepth ps ctx.show_all
          ctx.extra_excludes ctx.max_items ctx.no_limit ctx.exclude_depth ctx.no_files
          ctx.include_patterns ctx.include_file_types ctx.files_first).2) = true
      · by_cases hcap : capReached ctx.max_entries st1.entries = true
        · exact ⟨_, by
            dsimp only; rw [hps]; simp only [ok_bind]
            rw [hloop]; simp only [ok_bind]
            rw [if_pos ht, if_pos hcap]⟩
        · exact ⟨_, by
            dsimp only; rw [hps]; simp only [ok_bind]
            rw [hloop]; simp only [ok_bind]
            rw [if_pos ht, if_neg hcap]⟩
      · exact ⟨_, by
          dsimp only; rw [hps]; simp only [ok_bind]
          rw [hloop]; simp only [ok_bind]
          rw [if_neg ht]⟩

/-- C7 as amended: no exception escapes the traversal provided every
`.gitignore` encountered is readable (per-directory listing faults are
already absorbed by the child filter per spec §4.4); but a `.gitignore` that
exists and raises on read propagates the exception and aborts the whole
traversal, as the counterexample shows. -/
theorem c7_no_exception_when_readable (fs : FSEntry) (ctx : Ctx) (rootAbs : String)
    (h : allReadable fs = true) : ∃ evs, draw_tree fs ctx rootAbs = .ok evs := by
  cases fs with
  | file n c r => exact ⟨[], rfl⟩
  | dir n ch =>
    obtain ⟨⟨evs, st⟩, hout⟩ := drawRec_ok ctx rootAbs (fsFuel (FSEntry.dir n ch)) ch.toList
      "" 0 [] ⟨1, false⟩ (allReadableL_toList ch h)
    refine ⟨if st.truncHit then
        evs ++ [Event.truncAgg (some (st.entries - ctx.max_entries.getD 0))]
      else evs, ?_⟩
    show (drawRec ctx rootAbs (fsFuel (FSEntry.dir n ch)) ch.toList "" 0 [] ⟨1, false⟩).map
        (fun p => if p.2.truncHit then
            p.1 ++ [Event.truncAgg (some (p.2.entries - ctx.max_entries.getD 0))]
          else p.1) = _
    rw [hout]
    rfl

/-- Witness for C7 on the spec §8 snapshot, whose files are all readable. -/
theorem c7_no_exception_when_readable_witness :
    ∃ evs, draw_tree demoTree {} "/p" = .ok evs :=
  c7_no_exception_when_readable demoTree {} "/p" (by decide)

theorem whitelistKeep_file (wl : List String) (rootAbs relDir n c : String) (r : Bool)
    (h : whitelistKeep (some wl) rootAbs relDir (.file n c r) = true) :
    (rootAbs ++ "/" ++ joinRel relDir n) ∈ wl := by
  simp only [whitelistKeep, FSEntry.isFile, FSEntry.name, if_pos] at h
  exact List.elem_iff.1 h

theorem whitelistKeep_dir (wl : List String) (rootAbs relDir n : String) (ch : FSL)
    (h : whitelistKeep (some wl) rootAbs relDir (.dir n ch) = true) :
    ∃ f ∈ wl, strStartsWith f (rootAbs ++ "/" ++ joinRel relDir n) = true := by
  simp only [whitelistKeep, FSEntry.isFile, FSEntry.name, Bool.false_eq_true, if_false] at h
  exact List.any_eq_true.1 h

theorem drawLoop_wl (wl : List String) (rootAbs : String) (me : Option Nat) (relDir : String)
    (curDepth : Nat) (patterns : List String)
    (recurse : List FSEntry → String → Nat → List String → RSt → Except Unit (List Event × RSt))
    (hrec : ∀ (ch : List FSEntry) (rel : String) (d : Nat) (pats : List String) (st : RSt)
        (evs : List Event) (st' : RSt), recurse ch rel d pats st = .ok (evs, st') →
        ∀ ev ∈ evs, wlOk wl rootAbs ev) :
    ∀ (l : List FSEntry) (st : RSt),
      (∀ e ∈ l, whitelistKeep (some wl) rootAbs relDir e = true) →
      ∀ (evs : List Event) (st' : RSt),
        drawLoop recurse me relDir curDepth patterns l st = .ok (evs, st') →
        ∀ ev ∈ evs, wlOk wl rootAbs ev := by
  intro l
  induction l with
  | nil =>
    intro st _ evs st' h ev hev
    rw [drawLoop] at h
    cases h
    simp at hev
  | cons e rest ih =>
    intro st hl evs st' h ev hev
    have hrest : ∀ e' ∈ rest, whitelistKeep (some wl) rootAbs relDir e' = true :=
      fun e' he' => hl e' (by simp [he'])
    rw [drawLoop] at h
    cases e with
    | file n c r =>
      by_cases hcap : capReached me st.entries = true
      · rw [if_pos hcap] at h
        exact ih _ hrest evs st' h ev hev
      · rw [if_neg hcap] at h
        dsimp only at h
        cases hL : drawLoop recurse me relDir curDepth patterns rest
            ⟨st.entries + 1, st.truncHit⟩ with
        | error err => rw [hL] at h; cases h
        | ok q =>
          rw [hL] at h
          simp only [ok_bind] at h
          cases h
          rcases List.mem_cons.1 hev with h1 | h1
          · subst h1
            show (rootAbs ++ "/" ++ joinRel relDir ((FSEntry.file n c r).name)) ∈ wl
            exact whitelistKeep_file wl rootAbs relDir n c r (hl _ (List.mem_cons_self _ _))
          · exact ih _ hrest q.1 q.2 (by rw [hL]) ev h1
    | dir n ch =>
      by_cases hcap : capReached me st.entries = true
      · rw [if_pos hcap] at h
        dsimp only at h
        cases hR : recurse ch.toList (joinRel relDir (FSEntry.dir n ch).name) (curDepth + 1)
            patterns ⟨st.entries + 1, true⟩ with
        | error err => rw [hR] at h; cases h
        | ok p =>
          rw [hR] at h
          simp only [ok_bind] at h
          cases hL : drawLoop recurse me relDir curDepth patterns rest p.2 with
          | error err => rw [hL] at h; cases h
          | ok q =>
            rw [hL] at h
            simp only [ok_bind] at h
            cases h
            rcases List.mem_append.1 hev with h1 | h1
            · exact hrec _ _ _ _ _ p.1 p.2 (by rw [hR]) ev h1
            · exact ih _ hrest q.1 q.2 (by rw [hL]) ev h1
      · rw [if_neg hcap] at h
        dsimp only at h
        cases hR : recurse ch.toList (joinRel relDir (FSEntry.dir n ch).name) (curDepth + 1)
            patterns ⟨st.entries + 1, st.truncHit⟩ with
        | error err => rw [hR] at h; cases h
        | ok p =>
          rw [hR] at h
          simp only [ok_bind] at h
          cases hL : drawLoop recurse me relDir curDepth patterns rest p.2 with
          | error err => rw [hL] at h; cases h
          | ok q =>
            rw [hL] at h
            simp only [ok_bind] at h
            cases h
            rcases List.mem_cons.1 hev with h1 | h1
            · subst h1
              show ∃ f ∈ wl,
                strStartsWith f (rootAbs ++ "/" ++ joinRel relDir ((FSEntry.dir n ch).name))
                  = true
              exact whitelistKeep_dir wl rootAbs relDir n ch (hl _ (List.mem_cons_self _ _))
            · rcases List.mem_append.1 h1 with h2 | h2
              · exact hrec _ _ _ _ _ p.1 p.2 (by rw [hR]) ev h2
              · exact ih _ hrest q.1 q.2 (by rw [hL]) ev h2

theorem drawRec_wl (ctx : Ctx) (rootAbs : String) (wl : List String)
    (hw : ctx.whitelist = some wl) :
    ∀ (fuel : Nat) (children : List FSEntry) (relDir : String) (curDepth : Nat)
      (patterns : List String) (st : RSt) (evs : List Event) (st' : RSt),
      drawRec ctx rootAbs fuel children relDir curDepth patterns st = .ok (evs, st') →
      ∀ ev ∈ evs, wlOk wl rootAbs ev := by
  intro fuel
  induction fuel with
  | zero =>
    intro children relDir curDepth patterns st evs st' h ev hev
    rw [drawRec] at h
    cases h
    simp at hev
  | succ f ih =>
    intro children relDir curDepth patterns st evs st' h ev hev
    rw [drawRec] at h
    by_cases hd : depthStop ctx.depth curDepth = true
    · rw [if_pos hd] at h
      cases h
      simp at hev
    · rw [if_neg hd] at h
      dsimp only at h
      cases hg : gitignoreStep ctx.respect_gitignore ctx.gitignore_depth children relDir
          curDepth patterns with
      | error err => rw [hg] at h; cases h
      | ok ps =>
        rw [hg] at h
        simp only [ok_bind] at h
        cases hL : drawLoop (drawRec ctx rootAbs f) ctx.max_entries relDir curDepth ps
            ((list_entries children relDir curDepth ps ctx.show_all ctx.extra_excludes
              ctx.max_items ctx.no_limit ctx.exclude_depth ctx.no_files ctx.include_patterns
              ctx.include_file_types ctx.files_first).1.filter
                (whitelistKeep ctx.whitelist rootAbs relDir)) st with
        | error err => rw [hL] at h; cases h
        | ok q =>
          rw [hL] at h
          simp only [ok_bind] at h
          have hq : ∀ ev ∈ q.1, wlOk wl rootAbs ev := by
            refine drawLoop_wl wl rootAbs ctx.max_entries relDir curDepth ps
              (drawRec ctx rootAbs f)
              (fun ch rel d pats st0 evs0 st0' hr => ih ch rel d pats st0 evs0 st0' hr)
              _ st ?_ q.1 q.2 (by rw [hL])
            intro e he
            have := List.mem_filter.1 he
            rw [hw] at this
            exact this.2
          split at h
          · split at h
            · cases h
              exact hq ev hev
            · cases h
              rcases List.mem_append.1 hev with h1 | h1
              · exact hq ev h1
              · rcases List.mem_singleton.1 h1 with h2
                subst h2
                trivial
          · cases h
            exact hq ev hev

/-- C5 as amended: the whitelist is the final veto, with the directory test
being a string-prefix check on absolute paths: every emitted file entry's
absolute path is a whitelist member, and every emitted directory entry has
some whitelisted path that string-starts-with the directory's absolute path
(which, as the counterexample shows, can also be satisfied by a sibling
whose name extends the directory's name, so it is weaker than "some
whitelisted path lies under the directory"). -/
theorem c5_whitelist_is_final_veto (fs : FSEntry) (ctx : Ctx) (rootAbs : String)
    (wl : List String) (evs : List Event) (hw : ctx.whitelist = some wl)
    (h : draw_tree fs ctx rootAbs = .ok evs) : ∀ ev ∈ evs, wlOk wl rootAbs ev := by
  cases fs with
  | file n c r =>
    cases h
    intro ev hev
    simp at hev
  | dir n ch =>
    intro ev hev
    have h' : (drawRec ctx rootAbs (fsFuel (FSEntry.dir n ch)) ch.toList "" 0 []
        ⟨1, false⟩).map (fun p => if p.2.truncHit then
          p.1 ++ [Event.truncAgg (some (p.2.entries - ctx.max_entries.getD 0))]
        else p.1) = .ok evs := h
    cases hR : drawRec ctx rootAbs (fsFuel (FSEntry.dir n ch)) ch.toList "" 0 []
        ⟨1, false⟩ with
    | error err => rw [hR] at h'; cases h'
    | ok p =>
      rw [hR] at h'
      have hp : ∀ ev ∈ p.1, wlOk wl rootAbs ev :=
        drawRec_wl ctx rootAbs wl hw _ ch.toList "" 0 [] ⟨1, false⟩ p.1 p.2
          (by rw [hR])
      cases h'
      dsimp only at hev
      by_cases ht : p.2.truncHit = true
      · rw [if_pos ht] at hev
        rcases List.mem_append.1 hev with h1 | h1
        · exact hp ev h1
        · rcases List.mem_singleton.1 h1 with h2
          subst h2
          trivial
      · rw [if_neg ht] at hev
        exact hp ev hev

/-- Witness for C5 on a run where both a directory and a file pass the
whitelist filter. -/
theorem c5_whitelist_is_final_veto_witness :
    wlOk ["/p/src/a.txt"] "/p" (Event.entry "src" true) ∧
    wlOk ["/p/src/a.txt"] "/p" (Event.entry "src/a.txt" false) := by
  have h := c5_whitelist_is_final_veto wlTree { whitelist := some ["/p/src/a.txt"] } "/p"
    ["/p/src/a.txt"] [Event.entry "src" true, Event.entry "src/a.txt" false] rfl (by rfl)
  exact ⟨h _ (by simp), h _ (by simp)⟩

theorem noLeadSlash_of_not_slash (n : String) (h : strStartsWith n "/" = false) :
    noLeadSlash n := by
  unfold noLeadSlash
  unfold strStartsWith at h
  cases hd : n.data with
  | nil => simp [hd]
  | cons c cs =>
    rw [hd] at h
    simp only [List.isPrefixOf] at h
    intro hc
    simp only [List.head?_cons, Option.some.injEq] at hc
    subst hc
    simp at h

theorem data_ne_nil_of_ne_empty (s : String) (h : s ≠ "") : s.data ≠ [] := by
  intro hd
  apply h
  cases s with
  | mk d => cases hd; rfl

theorem head?_append_left {α : Type} (l₁ l₂ : List α) (h : l₁ ≠ []) :
    (l₁ ++ l₂).head? = l₁.head? := by
  cases l₁ with
  | nil => exact absurd rfl h
  | cons c cs => rfl

theorem joinRel_noLeadSlash (relDir n : String) (h1 : noLeadSlash relDir)
    (h2 : strStartsWith n "/" = false) : noLeadSlash (joinRel relDir n) := by
  unfold joinRel
  by_cases hr : relDir = ""
  · rw [if_pos hr]
    exact noLeadSlash_of_not_slash n h2
  · rw [if_neg hr]
    unfold noLeadSlash
    have hdata : (relDir ++ "/" ++ n).data = relDir.data ++ ('/' :: n.data) := by
      show (relDir.data ++ "/".data) ++ n.data = _
      rw [List.append_assoc]
      rfl
    rw [hdata, head?_append_left _ _ (data_ne_nil_of_ne_empty relDir hr)]
    exact h1

theorem absPath_head (rootAbs rel : String) (h : rootAbs.data.head? = some '/') :
    (rootAbs ++ "/" ++ rel).data.head? = some '/' := by
  have hne : rootAbs.data ≠ [] := fun hn => by rw [hn] at h; cases h
  have hdata : (rootAbs ++ "/" ++ rel).data = rootAbs.data ++ ('/' :: rel.data) := by
    show (rootAbs.data ++ "/".data) ++ rel.data = _
    rw [List.append_assoc]
    rfl
  rw [hdata, head?_append_left _ _ hne]
  exact h

theorem whitelistKeep_false (wl : List String) (rootAbs relDir : String) (e : FSEntry)
    (hroot : rootAbs.data.head? = some '/') (hwl : ∀ f ∈ wl, noLeadSlash f) :
    whitelistKeep (some wl) rootAbs relDir e = false := by
  have habs : ∀ f ∈ wl, (rootAbs ++ "/" ++ joinRel relDir e.name) ≠ f := by
    intro f hf heq
    exact hwl f hf (heq ▸ absPath_head rootAbs (joinRel relDir e.name) hroot)
  cases e with
  | file n c r =>
    simp only [whitelistKeep, FSEntry.isFile, FSEntry.name, if_pos]
    rw [Bool.eq_false_iff]
    intro hc
    exact habs _ (List.elem_iff.1 hc) rfl
  | dir n ch =>
    simp only [whitelistKeep, FSEntry.isFile, FSEntry.name, Bool.false_eq_true, if_false]
    rw [Bool.eq_false_iff]
    intro hc
    obtain ⟨f, hf, hsw⟩ := List.any_eq_true.1 hc
    unfold strStartsWith at hsw
    obtain ⟨t, ht⟩ := (List.isPrefixOf_iff_prefix.1 hsw)
    apply hwl f hf
    show f.data.head? = some '/'
    rw [← ht, head?_append_left _ _ ?_]
    · exact absPath_head rootAbs (joinRel relDir n) hroot
    · intro hn
      have := absPath_head rootAbs (joinRel relDir n) hroot
      rw [hn] at this
      cases this

theorem namesOkL_toList : ∀ l : FSL, namesOkL l = true →
    ∀ e ∈ l.toList, namesOk e = true
  | .nil, _, e, he => by simp [FSL.toList] at he
  | .cons (.file n c r) tl, h, e, he => by
    simp only [namesOkL, Bool.and_eq_true] at h
    rcases (by simpa [FSL.toList] using he : e = FSEntry.file n c r ∨ e ∈ tl.toList) with h1 | h1
    · subst h1; simpa [namesOk] using h.1
    · exact namesOkL_toList tl h.2 e h1
  | .cons (.dir n ch) tl, h, e, he => by
    simp only [namesOkL, Bool.and_eq_true] at h
    rcases (by simpa [FSL.toList] using he : e = FSEntry.dir n ch ∨ e ∈ tl.toList) with h1 | h1
    · subst h1
      simp only [namesOk, Bool.and_eq_true]
      exact ⟨h.1.1, h.1.2⟩
    · exact namesOkL_toList tl h.2 e h1

theorem collectLoop_noSlash (relDir : String) (curDepth : Nat) (patterns : List String)
    (recurse : List FSEntry → String → Nat → List String → Except Unit (List String))
    (hrd : noLeadSlash relDir)
    (hrec : ∀ (ch : List FSEntry) (rel : String) (d : Nat) (pats : List String)
        (out : List String), noLeadSlash rel → (∀ e ∈ ch, namesOk e = true) →
        recurse ch rel d pats = .ok out → ∀ f ∈ out, noLeadSlash f) :
    ∀ (l : List FSEntry), (∀ e ∈ l, namesOk e = true) →
      ∀ out : List String, collectLoop recurse relDir curDepth patterns l = .ok out →
      ∀ f ∈ out, noLeadSlash f := by
  intro l
  induction l with
  | nil =>
    intro _ out h f hf
    rw [collectLoop.eq_def] at h
    cases h
    simp at hf
  | cons e rest ih =>
    intro hl out h f hf
    have hrest : ∀ e' ∈ rest, namesOk e' = true := fun e' he' => hl e' (by simp [he'])
    rw [collectLoop.eq_def] at h
    cases e with
    | file n c r =>
      dsimp only at h
      cases hL : collectLoop recurse relDir curDepth patterns rest with
      | error err => rw [hL] at h; cases h
      | ok b =>
        rw [hL] at h
        simp only [ok_bind] at h
        cases h
        rcases List.mem_cons.1 hf with h1 | h1
        · subst h1
          have hn : strStartsWith (FSEntry.name (.file n c r)) "/" = false := by
            have := hl _ (List.mem_cons_self _ _)
            simpa [namesOk, FSEntry.name] using this
          exact joinRel_noLeadSlash relDir _ hrd hn
        · exact ih hrest b (by rw [hL]) f h1
    | dir n ch =>
      dsimp only at h
      cases hR : recurse ch.toList (joinRel relDir n) (curDepth + 1) patterns with
      | error err => rw [hR] at h; cases h
      | ok a =>
        rw [hR] at h
        simp only [ok_bind] at h
        cases hL : collectLoop recurse relDir curDepth patterns rest with
        | error err => rw [hL] at h; cases h
        | ok b =>
          rw [hL] at h
          simp only [ok_bind] at h
          cases h
          have hok := hl _ (List.mem_cons_self _ _)
          simp only [namesOk, Bool.and_eq_true] at hok
          rcases List.mem_append.1 hf with h1 | h1
          · refine hrec ch.toList _ (curDepth + 1) patterns a ?_ ?_ (by rw [hR]) f h1
            · exact joinRel_noLeadSlash relDir _ hrd
                (by simpa [FSEntry.name] using hok.1)
            · exact namesOkL_toList ch hok.2
          · exact ih hrest b (by rw [hL]) f h1

theorem collectRec_noSlash (ctx : Ctx) : ∀ (fuel : Nat) (children : List FSEntry)
    (relDir : String) (curDepth : Nat) (patterns : List String) (out : List String),
    noLeadSlash relDir → (∀ e ∈ children, namesOk e = true) →
    collectRec ctx fuel children relDir curDepth patterns = .ok out →
    ∀ f ∈ out, noLeadSlash f := by
  intro fuel
  induction fuel with
  | zero =>
    intro children relDir curDepth patterns out _ _ h f hf
    rw [collectRec] at h
    cases h
    simp at hf
  | succ fl ih =>
    intro children relDir curDepth patterns out hrd henv h f hf
    rw [collectRec] at h
    by_cases hd : depthStop ctx.depth curDepth = true
    · rw [if_pos hd] at h
      cases h
      simp at hf
    · rw [if_neg hd] at h
      dsimp only at h
      cases hg : gitignoreStep ctx.respect_gitignore ctx.gitignore_depth children relDir
          curDepth patterns with
      | error err => rw [hg] at h; cases h
      | ok ps =>
        rw [hg] at h
        simp only [ok_bind] at h
        refine collectLoop_noSlash relDir curDepth ps (collectRec ctx fl) hrd
          (fun ch rel d pats out0 hrel hch hr => ih ch rel d pats out0 hrel hch hr)
          _ ?_ out h f hf
        intro e he
        exact henv e (list_entries_mem _ _ _ _ _ _ _ _ _ _ _ _ _ e he)

/-- C10: `resolve_selected_files` returns root-relative POSIX paths (none of
which starts with `/`), while `draw_tree`'s whitelist filter compares
absolute path strings; hence with an absolute root no entry ever passes the
whitelist filter and the rendered tree has no children — only the root line
and possibly truncation notices.  Entry names are assumed not to start with
`/`, as on any real filesystem. -/
theorem c10_relative_whitelist_never_matches :
    (∀ (fs' : FSEntry) (ctx' : Ctx) (out : List String), namesOk fs' = true →
        resolve_selected_files fs' ctx' = .ok out → ∀ f ∈ out, noLeadSlash f) ∧
    (∀ (wl : List String) (rootAbs relDir : String) (e : FSEntry),
        rootAbs.data.head? = some '/' → (∀ f ∈ wl, noLeadSlash f) →
        whitelistKeep (some wl) rootAbs relDir e = false) ∧
    (∀ (fs : FSEntry) (ctx : Ctx) (rootAbs : String) (wl : List String) (evs : List Event),
        rootAbs.data.head? = some '/' → wl ≠ [] → (∀ f ∈ wl, noLeadSlash f) →
        ctx.whitelist = some wl → draw_tree fs ctx rootAbs = .ok evs →
        ∀ ev ∈ evs, ev.isEntry = false) := by
  refine ⟨?_, whitelistKeep_false, ?_⟩
  · intro fs' ctx' out hnames h f hf
    cases fs' with
    | file n c r =>
      unfold resolve_selected_files collect_candidate_files at h
      by_cases hnf : ctx'.no_files = true
      · simp only [hnf, if_pos] at h
        cases h
        simp at hf
      · rw [Bool.not_eq_true] at hnf
        simp only [hnf, Bool.false_eq_true, if_false] at h
        cases h
        rcases List.mem_singleton.1 hf with h1
        subst h1
        exact noLeadSlash_of_not_slash f (by simpa [namesOk] using hnames)
    | dir n ch =>
      refine collectRec_noSlash ctx' (fsFuel (FSEntry.dir n ch)) ch.toList "" 0 [] out
        (by intro hc; cases hc) ?_ h f hf
      simp only [namesOk, Bool.and_eq_true] at hnames
      exact namesOkL_toList ch hnames.2
  · intro fs ctx rootAbs wl evs hroot _ hwl hw h ev hev
    cases fs with
    | file n c r =>
      cases h
      simp at hev
    | dir n ch =>
      have h' : (drawRec ctx rootAbs (fsFuel (FSEntry.dir n ch)) ch.toList "" 0 []
          ⟨1, false⟩).map (fun p => if p.2.truncHit then
            p.1 ++ [Event.truncAgg (some (p.2.entries - ctx.max_entries.getD 0))]
          else p.1) = .ok evs := h
      have hfuel : fsFuel (FSEntry.dir n ch) = fsSizeL ch + 1 := by
        rw [fsFuel]
        omega
      rw [hfuel, drawRec] at h'
      by_cases hd : depthStop ctx.depth 0 = true
      · rw [if_pos hd] at h'
        cases h'
        simp at hev
      · rw [if_neg hd] at h'
        dsimp only at h'
        cases hg : gitignoreStep ctx.respect_gitignore ctx.gitignore_depth ch.toList "" 0 []
            with
        | error err => rw [hg] at h'; cases h'
        | ok ps =>
          rw [hg] at h'
          simp only [ok_bind] at h'
          have hnilf : (list_entries ch.toList "" 0 ps ctx.show_all ctx.extra_excludes
              ctx.max_items ctx.no_limit ctx.exclude_depth ctx.no_files ctx.include_patterns
              ctx.include_file_types ctx.files_first).1.filter
                (whitelistKeep ctx.whitelist rootAbs "") = [] := by
            rw [List.filter_eq_nil_iff]
            intro e _
            rw [hw, whitelistKeep_false wl rootAbs "" e hroot hwl]
            simp
          rw [hnilf, drawLoop] at h'
          simp only [ok_bind] at h'
          split at h'
          · split at h'
            · cases h'
              simp at hev
              subst hev
              rfl
            · cases h'
              simp at hev
              subst hev
              rfl
          · cases h'
            simp at hev

/-- Witness for C10: files selected from the `/p` demo snapshot are
root-relative, and rendering `/p` with that whitelist emits no entries. -/
theorem c10_relative_whitelist_never_matches_witness :
    noLeadSlash "src/main.py" ∧
    whitelistKeep (some ["src/main.py"]) "/p" "" (.dir "src" FSL.nil) = false := by
  constructor
  · refine c10_relative_whitelist_never_matches.1 demoTree {} ["src/main.py"] (by decide)
      (by rfl) "src/main.py" (by simp)
  · exact c10_relative_whitelist_never_matches.2.1 ["src/main.py"] "/p" ""
      (.dir "src" FSL.nil) rfl
      (by
        intro f hf
        rcases List.mem_singleton.1 hf with h1
        subst h1
        exact noLeadSlash_of_not_slash _ (by decide))

theorem error_bind {α β : Type} (e : Unit) (f : α → Except Unit β) :
    ((Except.error e : Except Unit α) >>= f) = .error e := rfl

theorem flattenTN_append : ∀ (relDir : String) (xs ys : TreeNodes),
    flattenTN relDir (xs.append ys) = flattenTN relDir xs ++ flattenTN relDir ys
  | relDir, .nil, ys => by simp [TreeNodes.append, flattenTN]
  | relDir, .cons (.fileN n p c) tl, ys => by
    simp only [TreeNodes.append, flattenTN, flattenTN_append relDir tl ys, List.cons_append]
  | relDir, .cons (.dirN n ch) tl, ys => by
    simp only [TreeNodes.append, flattenTN, flattenTN_append relDir tl ys]
    simp [List.append_assoc]
  | relDir, .cons (.truncCounted k) tl, ys => by
    simp only [TreeNodes.append, flattenTN, flattenTN_append relDir tl ys, List.cons_append]
  | relDir, .cons .truncUncounted tl, ys => by
    simp only [TreeNodes.append, flattenTN, flattenTN_append relDir tl ys, List.cons_append]

theorem capReached_none (k : Nat) : capReached none k = false := rfl

theorem loopAligns (me : Option Nat) (hme : me = none) (ic : Bool) (ncf : List String)
    (rootAbs relDir : String) (curDepth : Nat) (patterns : List String)
    (recR : List FSEntry → String → Nat → List String → RSt → Except Unit (List Event × RSt))
    (recE : List FSEntry → String → Nat → List String → ESt → Except Unit (TreeNodes × ESt))
    (hrec : ∀ (ch : List FSEntry) (rel : String) (d : Nat) (pats : List String) (rst : RSt)
        (est : ESt), est.stop = false →
        alignsAt rel rst.truncHit (recR ch rel d pats rst) (recE ch rel d pats est)) :
    ∀ (l : List FSEntry) (rst : RSt) (est : ESt), est.stop = false →
      alignsAt relDir rst.truncHit
        (drawLoop recR me relDir curDepth patterns l rst)
        (exLoop recE me ic ncf rootAbs relDir curDepth patterns l est) := by
  subst hme
  intro l
  induction l with
  | nil =>
    intro rst est hstop
    rw [drawLoop, exLoop.eq_def]
    simp [alignsAt, flattenTN, hstop]
  | cons e rest ih =>
    intro rst est hstop
    rw [drawLoop, exLoop.eq_def]
    dsimp only
    rw [capReached_none rst.entries, capReached_none est.entries, hstop]
    simp only [Bool.false_eq_true, if_false]
    cases e with
    | file n c r =>
      dsimp only [FSEntry.name]
      have ihr := ih ⟨rst.entries + 1, rst.truncHit⟩ ⟨est.entries + 1, false⟩ rfl
      cases hR : drawLoop recR none relDir curDepth patterns rest
          ⟨rst.entries + 1, rst.truncHit⟩ with
      | error err =>
        cases hE : exLoop recE none ic ncf rootAbs relDir curDepth patterns rest
            ⟨est.entries + 1, false⟩ with
        | error err2 =>
          simp only [error_bind]
          trivial
        | ok q =>
          rw [hR, hE] at ihr
          simp only [alignsAt] at ihr
      | ok p =>
        cases hE : exLoop recE none ic ncf rootAbs relDir curDepth patterns rest
            ⟨est.entries + 1, false⟩ with
        | error err2 =>
          rw [hR, hE] at ihr
          simp only [alignsAt] at ihr
        | ok q =>
          rw [hR, hE] at ihr
          simp only [alignsAt] at ihr
          simp only [ok_bind, alignsAt, flattenTN]
          exact ⟨by rw [ihr.1], ihr.2.1, ihr.2.2⟩
    | dir n ch =>
      dsimp only [FSEntry.name]
      have hsub := hrec ch.toList (joinRel relDir n) (curDepth + 1)
        patterns ⟨rst.entries + 1, rst.truncHit⟩ ⟨est.entries + 1, false⟩ rfl
      cases hR : recR ch.toList (joinRel relDir n) (curDepth + 1)
          patterns ⟨rst.entries + 1, rst.truncHit⟩ with
      | error err =>
        cases hE : recE ch.toList (joinRel relDir n) (curDepth + 1)
            patterns ⟨est.entries + 1, false⟩ with
        | error err2 =>
          simp only [error_bind]
          trivial
        | ok q =>
          rw [hR, hE] at hsub
          simp only [alignsAt] at hsub
      | ok p =>
        cases hE : recE ch.toList (joinRel relDir n) (curDepth + 1)
            patterns ⟨est.entries + 1, false⟩ with
        | error err2 =>
          rw [hR, hE] at hsub
          simp only [alignsAt] at hsub
        | ok q =>
          rw [hR, hE] at hsub
          simp only [alignsAt] at hsub
          have ihr := ih p.2 q.2 hsub.2.2
          simp only [ok_bind]
          cases hR2 : drawLoop recR none relDir curDepth patterns rest p.2 with
          | error err =>
            cases hE2 : exLoop recE none ic ncf rootAbs relDir curDepth patterns rest q.2 with
            | error err2 =>
              simp only [error_bind]
              trivial
            | ok q2 =>
              rw [hR2, hE2] at ihr
              simp only [alignsAt] at ihr
          | ok p2 =>
            cases hE2 : exLoop recE none ic ncf rootAbs relDir curDepth patterns rest q.2 with
            | error err2 =>
              rw [hR2, hE2] at ihr
              simp only [alignsAt] at ihr
            | ok q2 =>
              rw [hR2, hE2] at ihr
              simp only [alignsAt] at ihr
              simp only [ok_bind, alignsAt, flattenTN]
              refine ⟨?_, ?_, ihr.2.2⟩
              · rw [hsub.1, ihr.1]
              · rw [ihr.2.1, hsub.2.1]

theorem recAligns (ctx : Ctx) (rootAbs : String) (ic : Bool) (ncf : List String)
    (h1 : ctx.max_entries = none) (h2 : ctx.no_limit = false) (h3 : ctx.files_first = false) :
    ∀ (fuel : Nat) (children : List FSEntry) (relDir : String) (curDepth : Nat)
      (patterns : List String) (rst : RSt) (est : ESt), est.stop = false →
      alignsAt relDir rst.truncHit
        (drawRec ctx rootAbs fuel children relDir curDepth patterns rst)
        (buildRec ctx rootAbs ic ncf fuel children relDir curDepth patterns est) := by
  intro fuel
  induction fuel with
  | zero =>
    intro children relDir curDepth patterns rst est hstop
    rw [drawRec, buildRec]
    simp [alignsAt, flattenTN, hstop]
  | succ f ih =>
    intro children relDir curDepth patterns rst est hstop
    rw [drawRec, buildRec]
    by_cases hd : depthStop ctx.depth curDepth = true
    · rw [if_pos hd, if_pos hd]
      simp [alignsAt, flattenTN, hstop]
    · rw [if_neg hd, if_neg hd, hstop]
      simp only [Bool.false_eq_true, if_false]
      cases hg : gitignoreStep ctx.respect_gitignore ctx.gitignore_depth children relDir
          curDepth patterns with
      | error err =>
        simp only [error_bind]
        trivial
      | ok ps =>
        simp only [ok_bind]
        rw [h2, h3]
        have hl := loopAligns ctx.max_entries h1 ic ncf rootAbs relDir curDepth ps
          (drawRec ctx rootAbs f) (buildRec ctx rootAbs ic ncf f)
          (fun ch rel d pats rst' est' hstop' => ih ch rel d pats rst' est' hstop')
          ((list_entries children relDir curDepth ps ctx.show_all ctx.extra_excludes
            ctx.max_items false ctx.exclude_depth ctx.no_files ctx.include_patterns
            ctx.include_file_types false).1.filter
              (whitelistKeep ctx.whitelist rootAbs relDir)) rst est hstop
        cases hR : drawLoop (drawRec ctx rootAbs f) ctx.max_entries relDir curDepth ps
            ((list_entries children relDir curDepth ps ctx.show_all ctx.extra_excludes
              ctx.max_items false ctx.exclude_depth ctx.no_files ctx.include_patterns
              ctx.include_file_types false).1.filter
                (whitelistKeep ctx.whitelist rootAbs relDir)) rst with
        | error err =>
          cases hE : exLoop (buildRec ctx rootAbs ic ncf f) ctx.max_entries ic ncf rootAbs
              relDir curDepth ps
              ((list_entries children relDir curDepth ps ctx.show_all ctx.extra_excludes
                ctx.max_items false ctx.exclude_depth ctx.no_files ctx.include_patterns
                ctx.include_file_types false).1.filter
                  (whitelistKeep ctx.whitelist rootAbs relDir)) est with
          | error err2 =>
            trivial
          | ok q =>
            rw [hR, hE] at hl
            simp only [alignsAt] at hl
        | ok p =>
          cases hE : exLoop (buildRec ctx rootAbs ic ncf f) ctx.max_entries ic ncf rootAbs
              relDir curDepth ps
              ((list_entries children relDir curDepth ps ctx.show_all ctx.extra_excludes
                ctx.max_items false ctx.exclude_depth ctx.no_files ctx.include_patterns
                ctx.include_file_types false).1.filter
                  (whitelistKeep ctx.whitelist rootAbs relDir)) est with
          | error err2 =>
            rw [hR, hE] at hl
            simp only [alignsAt] at hl
          | ok q =>
            rw [hR, hE] at hl
            simp only [alignsAt] at hl
            simp only [ok_bind]
            by_cases htr : decide (0 < (list_entries children relDir curDepth ps ctx.show_all
                ctx.extra_excludes ctx.max_items false ctx.exclude_depth ctx.no_files
                ctx.include_patterns ctx.include_file_types false).2) = true
            · have hcond2 : (decide (0 < (list_entries children relDir curDepth ps
                  ctx.show_all ctx.extra_excludes ctx.max_items false ctx.exclude_depth
                  ctx.no_files ctx.include_patterns ctx.include_file_types false).2)
                    && !q.2.stop) = true := by
                rw [htr, hl.2.2]
                rfl
              rw [if_pos htr, if_pos hcond2, h1, capReached_none p.2.entries]
              simp only [Bool.false_eq_true, if_false, alignsAt]
              refine ⟨?_, hl.2.1, hl.2.2⟩
              rw [flattenTN_append, hl.1]
              simp [flattenTN]
            · have hcond2 : (decide (0 < (list_entries children relDir curDepth ps
                  ctx.show_all ctx.extra_excludes ctx.max_items false ctx.exclude_depth
                  ctx.no_files ctx.include_patterns ctx.include_file_types false).2)
                    && !q.2.stop) = false := by
                rw [Bool.not_eq_true] at htr
                rw [htr]
                rfl
              rw [if_neg htr, if_neg (by rw [hcond2]; intro hc; cases hc)]
              simp only [alignsAt]
              exact hl

/-- C1 as amended: when no global `max_entries` cap is set — and the
renderer-only `no_limit` and `files_first` options are at their defaults,
since the exporter does not forward them to the child filter — the renderer
path and the exporter path visit exactly the same entries in the same order
and report the same truncation.  When a global cap is set the two paths
diverge at the point the cap is hit, as the counterexample shows: the
renderer keeps recursing through skipped entries and reports a counted
aggregate event, while the exporter stops immediately and reports an
uncounted marker. -/
theorem c1_no_cap_equivalence (fs : FSEntry) (ctx : Ctx) (rootAbs : String) (ic : Bool)
    (ncf : List String) (h1 : ctx.max_entries = none) (h2 : ctx.no_limit = false)
    (h3 : ctx.files_first = false) :
    draw_tree fs ctx rootAbs = exportEvents fs ctx rootAbs ic ncf := by
  cases fs with
  | file n c r => rfl
  | dir n ch =>
    have h := recAligns ctx rootAbs ic ncf h1 h2 h3 (fsFuel (FSEntry.dir n ch)) ch.toList
      "" 0 [] ⟨1, false⟩ ⟨1, false⟩ rfl
    show (drawRec ctx rootAbs (fsFuel (FSEntry.dir n ch)) ch.toList "" 0 [] ⟨1, false⟩).map
        (fun p => if p.2.truncHit then
          p.1 ++ [Event.truncAgg (some (p.2.entries - ctx.max_entries.getD 0))]
        else p.1)
      = ((buildRec ctx rootAbs ic ncf (fsFuel (FSEntry.dir n ch)) ch.toList "" 0 []
          ⟨1, false⟩).map (fun p => TreeNode.dirN n p.1)).map (fun t =>
            match t with
            | TreeNode.dirN _ ch2 => flattenTN "" ch2
            | _ => ([] : List Event))
    cases hR : drawRec ctx rootAbs (fsFuel (FSEntry.dir n ch)) ch.toList "" 0 []
        ⟨1, false⟩ with
    | error err =>
      cases hE : buildRec ctx rootAbs ic ncf (fsFuel (FSEntry.dir n ch)) ch.toList "" 0 []
          ⟨1, false⟩ with
      | error err2 => rfl
      | ok q =>
        rw [hR, hE] at h
        simp only [alignsAt] at h
    | ok p =>
      cases hE : buildRec ctx rootAbs ic ncf (fsFuel (FSEntry.dir n ch)) ch.toList "" 0 []
          ⟨1, false⟩ with
      | error err2 =>
        rw [hR, hE] at h
        simp only [alignsAt] at h
      | ok q =>
        rw [hR, hE] at h
        simp only [alignsAt] at h
        simp only [Except.map]
        rw [h.2.1]
        simp only [Bool.false_eq_true, if_false]
        rw [h.1]

/-- Witness for C1's amended equivalence on the spec §8 snapshot with the
default (cap-free) context. -/
theorem c1_no_cap_equivalence_witness :
    draw_tree demoTree {} "/p" = exportEvents demoTree {} "/p" true [] :=
  c1_no_cap_equivalence demoTree {} "/p" true [] rfl rfl rfl

end Gitree
